import Mathlib

/-!
Verification of the PuppetResume timeline-reconciliation and model-invocation
code (src/geminiService.ts, src/resumeAIService.ts).

Calendar model: the source manipulates `Date` objects that always sit on the
first day of a month, so every date in play is a calendar month.  We represent
such a month by its month index `12 * year + (month - 1) : Int` ("YYYY-MM"
with month in 1..12).  `setMonth(getMonth() - 1)` is `- 1`,
`setFullYear(getFullYear() - k)` is `- 12 * k`, and `Date` comparison is the
integer order.  `getTime()` differences are whole numbers of Gregorian days
times 86400000 ms; `civilDays` below counts Gregorian days so that
`(civilDays b - civilDays a) * 86400000` is exactly `b.getTime() - a.getTime()`.
The source divides such differences by `1000*60*60*24*30.44` to get an
approximate month count; we model that computation with exact rational
arithmetic, `days * 100 / 3044 : ℚ` (the double rounding error of the
JavaScript floats, about 1e-12 relative, is ignored; no claim below sits on
such a boundary).
-/

/-- Leap year test of the Gregorian calendar. -/
def isLeap (y : Int) : Bool :=
  (y % 4 == 0 && y % 100 != 0) || y % 400 == 0

/-- Cumulative day count before 0-based month `m` in a non-leap year. -/
def cumDays (m : Int) : Int :=
  if m ≤ 0 then 0 else if m = 1 then 31 else if m = 2 then 59 else if m = 3 then 90
  else if m = 4 then 120 else if m = 5 then 151 else if m = 6 then 181
  else if m = 7 then 212 else if m = 8 then 243 else if m = 9 then 273
  else if m = 10 then 304 else 334

/-- Day count of the first day of 0-based month `m` of year `y`, up to a
constant offset. -/
def civilYM (y m : Int) : Int :=
  365 * y + (y - 1) / 4 - (y - 1) / 100 + (y - 1) / 400 + cumDays m
    + (if 2 ≤ m ∧ isLeap y = true then 1 else 0)

/-- Day number (up to a constant offset) of the first day of the month with
month index `mi` (`mi = 12 * year + month0`).  Differences of `civilDays`
are exact Gregorian day differences, matching `Date.getTime()` differences
divided by 86400000. -/
def civilDays (mi : Int) : Int :=
  civilYM (mi / 12) (mi % 12)

theorem civilYM_succ_m (y m : Int) (h0 : 0 ≤ m) (h10 : m ≤ 10) :
    civilYM y m + 28 ≤ civilYM y (m + 1) ∧ civilYM y (m + 1) ≤ civilYM y m + 31 := by
  simp only [civilYM]
  interval_cases m <;> norm_num [cumDays] <;> split_ifs <;> omega

theorem civilYM_wrap (y : Int) : civilYM (y + 1) 0 = civilYM y 11 + 31 := by
  simp only [civilYM, isLeap, Bool.or_eq_true, Bool.and_eq_true, beq_iff_eq, bne_iff_ne]
  norm_num [cumDays]
  split_ifs <;> omega

theorem civilYM_succ_y (y m : Int) :
    civilYM y m + 365 ≤ civilYM (y + 1) m ∧ civilYM (y + 1) m ≤ civilYM y m + 366 := by
  simp only [civilYM, isLeap, Bool.or_eq_true, Bool.and_eq_true, beq_iff_eq, bne_iff_ne]
  split_ifs <;> omega

/-- Stepping one month forward adds between 28 and 31 days. -/
theorem civilDays_succ (mi : Int) :
    civilDays mi + 28 ≤ civilDays (mi + 1) ∧ civilDays (mi + 1) ≤ civilDays mi + 31 := by
  have hm0 : 0 ≤ mi % 12 := Int.emod_nonneg mi (by norm_num)
  have hm12 : mi % 12 < 12 := Int.emod_lt_of_pos mi (by norm_num)
  by_cases h : mi % 12 = 11
  · have h1 : (mi + 1) / 12 = mi / 12 + 1 := by omega
    have h2 : (mi + 1) % 12 = 0 := by omega
    have h3 := civilYM_wrap (mi / 12)
    simp only [civilDays, h1, h2, h, h3]
    omega
  · have h1 : (mi + 1) / 12 = mi / 12 := by omega
    have h2 : (mi + 1) % 12 = mi % 12 + 1 := by omega
    simp only [civilDays, h1, h2]
    exact civilYM_succ_m _ _ hm0 (by omega)

/-- Stepping one year forward adds 365 or 366 days. -/
theorem civilDays_add_twelve (mi : Int) :
    civilDays mi + 365 ≤ civilDays (mi + 12) ∧ civilDays (mi + 12) ≤ civilDays mi + 366 := by
  have h1 : (mi + 12) / 12 = mi / 12 + 1 := by omega
  have h2 : (mi + 12) % 12 = mi % 12 := by omega
  simp only [civilDays, h1, h2]
  exact civilYM_succ_y _ _

theorem civilDays_add_nat (a : Int) (n : ℕ) :
    civilDays a + 28 * n ≤ civilDays (a + n) ∧ civilDays (a + n) ≤ civilDays a + 31 * n := by
  induction n with
  | zero => simp
  | succ k ih =>
      have h := civilDays_succ (a + k)
      have e : a + ((k : Int) + 1) = a + k + 1 := by ring
      push_cast
      rw [e]
      push_cast at ih
      omega

/-- `civilDays` is strictly monotone; month order and day order agree. -/
theorem civilDays_lt_iff (a b : Int) : civilDays a < civilDays b ↔ a < b := by
  constructor
  · intro h
    by_contra hle
    push_neg at hle
    have h2 := civilDays_add_nat b (a - b).toNat
    have e : b + ((a - b).toNat : Int) = a := by omega
    rw [e] at h2
    omega
  · intro h
    have h2 := civilDays_add_nat a (b - a).toNat
    have e : a + ((b - a).toNat : Int) = b := by omega
    rw [e] at h2
    omega

theorem civilDays_le_iff (a b : Int) : civilDays a ≤ civilDays b ↔ a ≤ b := by
  constructor
  · intro h
    by_contra hlt
    push_neg at hlt
    have := (civilDays_lt_iff b a).mpr hlt
    omega
  · intro h
    rcases lt_or_eq_of_le h with h1 | h1
    · exact le_of_lt ((civilDays_lt_iff a b).mpr h1)
    · rw [h1]

/-- Spanning `k` whole years backward from a month covers at most `366 * k` days. -/
theorem civilDays_year_span (e : Int) (k : ℕ) :
    civilDays e - civilDays (e - 12 * k) ≤ 366 * k := by
  induction k with
  | zero => simp
  | succ j ih =>
      have h := civilDays_add_twelve (e - 12 * (j + 1 : ℕ))
      have e1 : e - 12 * ((j : Int) + 1) + 12 = e - 12 * j := by ring
      push_cast at h ⊢
      rw [e1] at h
      push_cast at ih
      omega

/-! ## Month arithmetic of the source

The source compares and floors values of the form
`days * 86400000 / (1000*60*60*24*30.44) = days * 100 / 3044`.  The
executable definitions below use the exactly equal integer forms (integer
division `/` on `Int` is floor division for positive divisors); the
`monthsQ` bridge lemmas state the rational expressions that mirror the
source text. -/

/-- `b.getTime() - a.getTime()` in whole days for first-of-month dates. -/
def daysBetween (a b : Int) : Int := civilDays b - civilDays a

/-- The source's approximate month count between two first-of-month dates,
`(b.getTime() - a.getTime()) / (1000*60*60*24*30.44)`, as an exact rational. -/
def monthsQ (a b : Int) : ℚ := (daysBetween a b : ℚ) * 100 / 3044

/-- `Math.floor(gapMonths)` as stored into `insertPositions`. -/
def gapMonthsFloored (a b : Int) : Int := daysBetween a b * 100 / 3044

/-- `Math.floor(actualMonths / 12)`: the whole-year count the source assigns
to a segment from `a` to `b`. -/
def segYears (a b : Int) : Int := daysBetween a b * 100 / 36528

theorem gapMonthsFloored_eq (a b : Int) : gapMonthsFloored a b = ⌊monthsQ a b⌋ := by
  have h : monthsQ a b = ((daysBetween a b * 100 : Int) : ℚ) / ((3044 : ℕ) : ℚ) := by
    rw [monthsQ]
    push_cast
    ring
  rw [gapMonthsFloored, h, Rat.floor_intCast_div_natCast]
  norm_num

theorem segYears_eq (a b : Int) : segYears a b = ⌊monthsQ a b / 12⌋ := by
  have h : monthsQ a b / 12 = ((daysBetween a b * 100 : Int) : ℚ) / ((36528 : ℕ) : ℚ) := by
    rw [monthsQ]
    push_cast
    ring
  rw [segYears, h, Rat.floor_intCast_div_natCast]
  norm_num

theorem monthsQ_four_le_iff (a b : Int) : 4 ≤ monthsQ a b ↔ 12176 ≤ daysBetween a b * 100 := by
  rw [monthsQ, le_div_iff₀ (by norm_num : (0 : ℚ) < 3044)]
  constructor
  · intro h
    exact_mod_cast h
  · intro h
    exact_mod_cast h

/-- The `while` guard after clamping: `Math.floor(Math.max(0, m) / 12)`. -/
def clampedYears (a b : Int) : Int := max 0 (daysBetween a b * 100) / 36528

theorem monthsQ_nonneg_iff (a b : Int) : 0 ≤ monthsQ a b ↔ 0 ≤ daysBetween a b := by
  rw [monthsQ, le_div_iff₀ (by norm_num : (0 : ℚ) < 3044)]
  constructor
  · intro h
    have h2 : (0 : ℚ) ≤ (daysBetween a b : ℚ) * 100 := by linarith
    have h3 : (0 : ℚ) ≤ (daysBetween a b : ℚ) := by linarith
    exact_mod_cast h3
  · intro h
    have h2 : (0 : ℚ) ≤ (daysBetween a b : ℚ) := by exact_mod_cast h
    linarith

theorem clampedYears_eq (a b : Int) : clampedYears a b = ⌊max 0 (monthsQ a b) / 12⌋ := by
  rcases le_total (daysBetween a b) 0 with h | h
  · have h1 : max 0 (daysBetween a b * 100) = 0 := max_eq_left (by omega)
    have h2 : max 0 (monthsQ a b) = 0 := by
      apply max_eq_left
      rcases lt_or_eq_of_le h with h3 | h3
      · by_contra hc
        push_neg at hc
        have := (monthsQ_nonneg_iff a b).mp (le_of_lt hc)
        omega
      · rw [monthsQ, h3]
        norm_num
    rw [clampedYears, h1, h2]
    norm_num
  · have h1 : max 0 (daysBetween a b * 100) = daysBetween a b * 100 := max_eq_right (by omega)
    have h2 : max 0 (monthsQ a b) = monthsQ a b :=
      max_eq_right ((monthsQ_nonneg_iff a b).mpr h)
    rw [clampedYears, h1, h2, ← segYears]
    exact segYears_eq a b

/-! ## Data model

A user-supplied work experience: `start` is the month index of `startDate`
("YYYY-MM"); `endOpt` is `none` when `endDate` is the sentinel "至今"
(present), otherwise the month index of `endDate`.  `now` below is the month
index of the current month (`currentYear`/`currentMonth` in the source).
Canonical zero-padded "YYYY-MM" strings compare (`localeCompare`) exactly as
their month indices, which is how sorting is modelled. -/

structure WorkExp where
  start : Int
  endOpt : Option Int
deriving DecidableEq, Repr

/-- End of an interval with the "至今" sentinel resolved to the current month. -/
def resolveEnd (now : Int) (e : WorkExp) : Int := e.endOpt.getD now

/-- Sum of the per-interval month spans, as the source computes it:
`(endYear - startYear) * 12 + (endMonth - startMonth)`, which equals the
month-index difference; "至今" is measured to the current month. -/
def totalMonths (now : Int) (exps : List WorkExp) : Int :=
  (exps.map fun e => resolveEnd now e - e.start).sum

/-- Sorting comparator of the source's `sortedExistingExps`
(`a.startDate.localeCompare(b.startDate)`, chronological on canonical
"YYYY-MM" strings); `insertionSort` with it models JavaScript's stable sort. -/
def byStart (a b : WorkExp) : Prop := a.start ≤ b.start

instance : DecidableRel byStart := fun a b => inferInstanceAs (Decidable (a.start ≤ b.start))

instance : IsTotal WorkExp byStart := ⟨fun a b => le_total a.start b.start⟩

instance : IsTrans WorkExp byStart := ⟨fun _ _ _ h1 h2 => le_trans h1 h2⟩

/-- `[...profile.workExperiences].sort(...)` — ascending, stable. -/
def sortExps (exps : List WorkExp) : List WorkExp := List.insertionSort byStart exps

/-- One entry of the source's `insertPositions` array. -/
structure GapPos where
  afterEnd : Int
  beforeStart : Int
  gapMonths : Int
deriving DecidableEq, Repr

/-- The source's gap-detection loop over consecutive sorted intervals: a gap
qualifies when its approximate month count is at least 4 (`gapMonths >= 4`,
i.e. `12176 ≤ days * 100` by `monthsQ_four_le_iff`); the floored count is
stored. -/
def insertPositions (now : Int) : List WorkExp → List GapPos
  | a :: b :: rest =>
      (if 12176 ≤ daysBetween (resolveEnd now a) b.start * 100
        then [⟨resolveEnd now a, b.start, gapMonthsFloored (resolveEnd now a) b.start⟩] else [])
        ++ insertPositions now (b :: rest)
  | _ => []

/-- One entry of the source's `supplementSegments` array. -/
structure Seg where
  startDate : Int
  endDate : Int
  years : Int
deriving DecidableEq, Repr

/-- Numerator (over denominator 12) of
`Math.min(remainingYears, pos.gapMonths / 12, 3)`. -/
def availNum (r : Int) (p : GapPos) : Int := min (min (12 * r) p.gapMonths) 36

/-- `Math.min(remainingYears, pos.gapMonths / 12, 3)` as an exact rational. -/
def availYears (r : Int) (p : GapPos) : ℚ := min (min (r : ℚ) ((p.gapMonths : ℚ) / 12)) 3

theorem availNum_eq (r : Int) (p : GapPos) : (availNum r p : ℚ) = 12 * availYears r p := by
  rw [availNum, availYears]
  push_cast
  rw [mul_min_of_nonneg _ _ (by norm_num : (0 : ℚ) ≤ 12),
    mul_min_of_nonneg _ _ (by norm_num : (0 : ℚ) ≤ 12)]
  have h12 : (12 : ℚ) * ((p.gapMonths : ℚ) / 12) = (p.gapMonths : ℚ) := by
    field_simp
  rw [h12]
  norm_num

theorem half_le_availYears_iff (r : Int) (p : GapPos) :
    1 / 2 ≤ availYears r p ↔ 6 ≤ availNum r p := by
  have h := availNum_eq r p
  constructor
  · intro hh
    have : (6 : ℚ) ≤ (availNum r p : ℚ) := by rw [h]; linarith
    exact_mod_cast this
  · intro hh
    have h6 : (6 : ℚ) ≤ (availNum r p : ℚ) := by exact_mod_cast hh
    rw [h] at h6
    linarith

theorem floor_availYears_eq (r : Int) (p : GapPos) : ⌊availYears r p⌋ = availNum r p / 12 := by
  have h : availYears r p = ((availNum r p : Int) : ℚ) / ((12 : ℕ) : ℚ) := by
    rw [availNum_eq]
    push_cast
    field_simp
  rw [h, Rat.floor_intCast_div_natCast]
  norm_num

/-- Start month of the candidate segment for gap `p` at remaining years `r`:
one month before the next interval minus the floored available years, shifted
to one month after the prior interval's end when it would fall before it. -/
def gapStart (r : Int) (p : GapPos) : Int :=
  if p.beforeStart - 1 - 12 * (availNum r p / 12) < p.afterEnd then p.afterEnd + 1
  else p.beforeStart - 1 - 12 * (availNum r p / 12)

/-- The segment the gap-insertion loop builds for position `p` at remaining
requirement `r`. -/
def gapSegCandidate (r : Int) (p : GapPos) : Seg :=
  ⟨gapStart r p, p.beforeStart - 1, segYears (gapStart r p) (p.beforeStart - 1)⟩

/-- The source's gap-insertion loop (`for (const pos of insertPositions)`),
returning the pushed segments and the remaining years after the loop.  A
candidate is built when at least half a year is available
(`availableYears >= 0.5`, i.e. `6 ≤ availNum` by `half_le_availYears_iff`)
and pushed (with the remainder decremented) only when its floored year count
is positive. -/
def gapFill : List GapPos → Int → List Seg × Int
  | [], r => ([], r)
  | p :: ps, r =>
      if r ≤ 0 then ([], r)
      else if 6 ≤ availNum r p then
        if 0 < (gapSegCandidate r p).years then
          (gapSegCandidate r p :: (gapFill ps (r - (gapSegCandidate r p).years)).1,
            (gapFill ps (r - (gapSegCandidate r p).years)).2)
        else gapFill ps r
      else gapFill ps r

/-- The segment start computed by the backward loop before clamping:
`endDate` minus one month minus `Math.min(remainingYears, 3)` years. -/
def backStart (r cur : Int) : Int := cur - 1 - 12 * min r 3

/-- One pass structure of the source's backward `while (remainingYears > 0)`
loop, with explicit fuel to make the recursion structural.  Each continuing
iteration decrements the remaining years by at least 1, so fuel `r.toNat`
is enough (`backwardFill_eq` below proves the loop equation). -/
def backwardFillFuel (floorD : Int) : ℕ → Int → Int → List Seg
  | 0, _, _ => []
  | n + 1, r, cur =>
      if r ≤ 0 then []
      else if backStart r cur < floorD then
        if clampedYears floorD (cur - 1) ≤ 0 then []
        else
          ⟨floorD, cur - 1, segYears floorD (cur - 1)⟩ ::
            backwardFillFuel floorD n (r - clampedYears floorD (cur - 1)) floorD
      else
        ⟨backStart r cur, cur - 1, segYears (backStart r cur) (cur - 1)⟩ ::
          backwardFillFuel floorD n (r - min r 3) (backStart r cur)

/-- The source's backward-fill loop, extending fabricated segments backward
from `cur` (initially the earliest real start), clamped at the
legal-work-start floor `floorD`. -/
def backwardFill (floorD r cur : Int) : List Seg := backwardFillFuel floorD r.toNat r cur

theorem backwardFillFuel_fuel_irrel (floorD : Int) :
    ∀ n m r cur, r.toNat ≤ n → r.toNat ≤ m →
      backwardFillFuel floorD n r cur = backwardFillFuel floorD m r cur := by
  intro n
  induction n with
  | zero =>
      intro m r cur hn _
      have hr : r ≤ 0 := by omega
      cases m with
      | zero => rfl
      | succ k => simp [backwardFillFuel, hr]
  | succ j ih =>
      intro m r cur _ hm
      by_cases hr : r ≤ 0
      · cases m with
        | zero => simp [backwardFillFuel, hr]
        | succ k => simp [backwardFillFuel, hr]
      · have hm1 : 1 ≤ m := by omega
        obtain ⟨k, rfl⟩ : ∃ k, m = k + 1 := ⟨m - 1, by omega⟩
        simp only [backwardFillFuel, if_neg hr]
        by_cases hclamp : backStart r cur < floorD
        · rw [if_pos hclamp, if_pos hclamp]
          by_cases hy : clampedYears floorD (cur - 1) ≤ 0
          · rw [if_pos hy, if_pos hy]
          · rw [if_neg hy, if_neg hy]
            have := ih k (r - clampedYears floorD (cur - 1)) floorD (by omega) (by omega)
            rw [this]
        · rw [if_neg hclamp, if_neg hclamp]
          have := ih k (r - min r 3) (backStart r cur) (by omega) (by omega)
          rw [this]

/-- The loop equation of the source's backward-fill `while` loop. -/
theorem backwardFill_eq (floorD r cur : Int) :
    backwardFill floorD r cur =
      if r ≤ 0 then []
      else if backStart r cur < floorD then
        if clampedYears floorD (cur - 1) ≤ 0 then []
        else
          ⟨floorD, cur - 1, segYears floorD (cur - 1)⟩ ::
            backwardFill floorD (r - clampedYears floorD (cur - 1)) floorD
      else
        ⟨backStart r cur, cur - 1, segYears (backStart r cur) (cur - 1)⟩ ::
          backwardFill floorD (r - min r 3) (backStart r cur) := by
  by_cases hr : r ≤ 0
  · have h0 : r.toNat = 0 := by omega
    rw [backwardFill, h0]
    simp [backwardFillFuel, hr]
  · have h1 : r.toNat = (r.toNat - 1) + 1 := by omega
    rw [backwardFill, h1]
    simp only [backwardFillFuel, if_neg hr]
    by_cases hclamp : backStart r cur < floorD
    · rw [if_pos hclamp, if_pos hclamp]
      by_cases hy : clampedYears floorD (cur - 1) ≤ 0
      · rw [if_pos hy, if_pos hy]
      · rw [if_neg hy, if_neg hy, backwardFill]
        rw [backwardFillFuel_fuel_irrel floorD (r.toNat - 1)
          (r - clampedYears floorD (cur - 1)).toNat _ _ (by omega) (by omega)]
    · rw [if_neg hclamp, if_neg hclamp, backwardFill]
      rw [backwardFillFuel_fuel_irrel floorD (r.toNat - 1)
        (r - min r 3).toNat _ _ (by omega) (by omega)]

/-- The whole segment allocator (`supplementSegments` in the source): gap
insertion first, then backward fill from the earliest real interval's start
with whatever requirement is left.  Empty experience lists produce nothing
(the source guards on `profile.workExperiences.length > 0`). -/
def supplementSegments (now floorD : Int) (exps : List WorkExp) (supY : Int) : List Seg :=
  match sortExps exps with
  | [] => []
  | e :: es =>
      (gapFill (insertPositions now (e :: es)) supY).1
        ++ backwardFill floorD (gapFill (insertPositions now (e :: es)) supY).2 e.start

/-! ## Facts about the numeric layer -/

theorem segYears_pos_lt (a b : Int) (h : 0 < segYears a b) : a < b := by
  rw [segYears] at h
  have hd : 0 < daysBetween a b := by omega
  rw [daysBetween] at hd
  exact (civilDays_lt_iff a b).mp (by omega)

theorem gap_qualifies_lt (a b : Int) (h : 12176 ≤ daysBetween a b * 100) : a < b := by
  have hd : 0 < daysBetween a b := by omega
  rw [daysBetween] at hd
  exact (civilDays_lt_iff a b).mp (by omega)

theorem daysBetween_le_of_le (a a' b : Int) (h : a ≤ a') : daysBetween a' b ≤ daysBetween a b := by
  have := (civilDays_le_iff a a').mpr h
  rw [daysBetween, daysBetween]
  omega

theorem daysBetween_neg_of_lt (a b : Int) (h : b < a) : daysBetween a b < 0 := by
  have := (civilDays_lt_iff b a).mpr h
  rw [daysBetween]
  omega

/-- A segment spanning at most `k ≤ 3` whole years backward is assigned at
most `k` years by the floored approximate arithmetic. -/
theorem segYears_le_of_span (s e k : Int) (hk0 : 0 ≤ k) (hk3 : k ≤ 3)
    (h : e - 12 * k ≤ s) : segYears s e ≤ k := by
  have h1 : daysBetween s e ≤ daysBetween (e - 12 * k) e := daysBetween_le_of_le _ _ _ h
  have h2 : civilDays e - civilDays (e - 12 * k.toNat) ≤ 366 * k.toNat :=
    civilDays_year_span e k.toNat
  have hk : (k.toNat : Int) = k := by omega
  rw [hk] at h2
  simp only [daysBetween] at h1
  rw [segYears, daysBetween]
  omega

/-! ## Characterization of the gap-insertion loop -/

theorem gapStart_ge (r : Int) (p : GapPos) : p.afterEnd ≤ gapStart r p := by
  rw [gapStart]
  split_ifs with h <;> omega

theorem gapSegCandidate_years_le (rr : Int) (p : GapPos) (hav : 6 ≤ availNum rr p) :
    (gapSegCandidate rr p).years ≤ availNum rr p / 12 := by
  have hk0 : 0 ≤ availNum rr p / 12 := by omega
  have hk3 : availNum rr p / 12 ≤ 3 := by
    have : availNum rr p ≤ 36 := min_le_right _ _
    omega
  apply segYears_le_of_span _ _ _ hk0 hk3
  rw [gapStart]
  split_ifs with h <;> omega

theorem gapFill_remaining_le (ps : List GapPos) (r : Int) : (gapFill ps r).2 ≤ r := by
  induction ps generalizing r with
  | nil => simp [gapFill]
  | cons p ps ih =>
      rw [gapFill]
      split_ifs with h1 h2 h3
      · simp
      · have h4 := ih (r - (gapSegCandidate r p).years)
        simp only []
        omega
      · exact ih r
      · exact ih r

/-- Every segment the gap loop pushes is the candidate of some position of
the list, built at a positive remaining requirement no larger than the
initial one, with at least half a year available and a positive floored year
count. -/
theorem gapFill_mem (ps : List GapPos) (r : Int) (s : Seg) (hs : s ∈ (gapFill ps r).1) :
    ∃ p ∈ ps, ∃ rr : Int, 0 < rr ∧ rr ≤ r ∧ 6 ≤ availNum rr p ∧
      s = gapSegCandidate rr p ∧ 0 < s.years := by
  induction ps generalizing r with
  | nil => simp [gapFill] at hs
  | cons p ps ih =>
      rw [gapFill] at hs
      split_ifs at hs with h1 h2 h3
      · simp at hs
      · simp only [List.mem_cons] at hs
        rcases hs with rfl | hs
        · exact ⟨p, List.mem_cons_self p ps, r, by omega, le_refl r, h2, rfl, h3⟩
        · obtain ⟨q, hq, rr, hrr0, hrrle, hav, hcand, hy⟩ := ih _ hs
          exact ⟨q, List.mem_cons_of_mem p hq, rr, hrr0, by omega, hav, hcand, hy⟩
      · obtain ⟨q, hq, rr, hrr0, hrrle, hav, hcand, hy⟩ := ih _ hs
        exact ⟨q, List.mem_cons_of_mem p hq, rr, hrr0, hrrle, hav, hcand, hy⟩
      · obtain ⟨q, hq, rr, hrr0, hrrle, hav, hcand, hy⟩ := ih _ hs
        exact ⟨q, List.mem_cons_of_mem p hq, rr, hrr0, hrrle, hav, hcand, hy⟩

/-! ## Characterization of the gap-detection loop -/

/-- A position is recorded exactly for a consecutive pair of the (sorted)
list whose gap qualifies (approximate month count at least 4). -/
theorem insertPositions_mem (now : Int) (l : List WorkExp) (p : GapPos) :
    p ∈ insertPositions now l ↔
      ∃ pre c n post, l = pre ++ c :: n :: post ∧
        12176 ≤ daysBetween (resolveEnd now c) n.start * 100 ∧
        p = ⟨resolveEnd now c, n.start, gapMonthsFloored (resolveEnd now c) n.start⟩ := by
  induction l with
  | nil =>
      simp only [insertPositions, List.not_mem_nil, false_iff]
      rintro ⟨pre, c, n, post, heq, -, -⟩
      have := congrArg List.length heq
      simp at this
      omega
  | cons a l ih =>
      cases l with
      | nil =>
          simp only [insertPositions, List.not_mem_nil, false_iff]
          rintro ⟨pre, c, n, post, heq, -, -⟩
          have := congrArg List.length heq
          simp at this
          omega
      | cons b rest =>
          constructor
          · intro hp
            rw [insertPositions, List.mem_append] at hp
            rcases hp with hp | hp
            · split_ifs at hp with hq
              · simp only [List.mem_singleton] at hp
                exact ⟨[], a, b, rest, rfl, hq, hp⟩
              · simp at hp
            · obtain ⟨pre, c, n, post, heq, hq, hpeq⟩ := ih.mp hp
              exact ⟨a :: pre, c, n, post, by rw [List.cons_append, heq], hq, hpeq⟩
          · rintro ⟨pre, c, n, post, heq, hq, hpeq⟩
            rw [insertPositions, List.mem_append]
            cases pre with
            | nil =>
                simp only [List.nil_append, List.cons.injEq] at heq
                obtain ⟨rfl, rfl, rfl⟩ := heq
                left
                rw [if_pos hq]
                simp [hpeq]
            | cons a' pre' =>
                simp only [List.cons_append, List.cons.injEq] at heq
                right
                exact ih.mpr ⟨pre', c, n, post, heq.2, hq, hpeq⟩

theorem sorted_head_le (x : WorkExp) (l : List WorkExp) (hsort : (x :: l).Sorted byStart)
    (c : WorkExp) (hc : c ∈ x :: l) : x.start ≤ c.start := by
  rcases List.mem_cons.mp hc with rfl | hc'
  · exact le_refl _
  · exact (List.pairwise_cons.mp hsort).1 c hc'

/-- Positions are recorded in chronological order: an earlier position's
`beforeStart` is at most a later position's `afterEnd` (given well-formed,
start-sorted intervals). -/
theorem insertPositions_pairwise (now : Int) (l : List WorkExp)
    (hsort : l.Sorted byStart) (hwf : ∀ e ∈ l, e.start < resolveEnd now e) :
    (insertPositions now l).Pairwise (fun p q => p.beforeStart ≤ q.afterEnd) := by
  induction l with
  | nil => simp [insertPositions]
  | cons a l ih =>
      cases l with
      | nil => simp [insertPositions]
      | cons b rest =>
          rw [insertPositions, List.pairwise_append]
          have hsort' : (b :: rest).Sorted byStart := hsort.of_cons
          have hwf' : ∀ e ∈ b :: rest, e.start < resolveEnd now e :=
            fun e he => hwf e (List.mem_cons_of_mem a he)
          refine ⟨?_, ih hsort' hwf', ?_⟩
          · split_ifs <;> simp
          · intro p hp q hq
            split_ifs at hp with hqual
            · simp only [List.mem_singleton] at hp
              subst hp
              obtain ⟨pre, c, n, post, heq, -, rfl⟩ :=
                (insertPositions_mem now (b :: rest) q).mp hq
              have hc : c ∈ b :: rest := by
                rw [heq]
                exact List.mem_append_right pre (List.mem_cons_self c (n :: post))
              have h1 : b.start ≤ c.start := sorted_head_le b rest hsort' c hc
              have h2 : c.start < resolveEnd now c := hwf' c hc
              show b.start ≤ resolveEnd now c
              omega
            · simp at hp

/-- Segments pushed by the gap loop are chronologically disjoint and ordered:
an earlier segment ends strictly before a later one starts. -/
theorem gapFill_pairwise (ps : List GapPos) (r : Int)
    (hps : ps.Pairwise (fun p q => p.beforeStart ≤ q.afterEnd)) :
    (gapFill ps r).1.Pairwise (fun s t => s.endDate < t.startDate) := by
  induction ps generalizing r with
  | nil => simp [gapFill]
  | cons p ps ih =>
      obtain ⟨hhead, htail⟩ := List.pairwise_cons.mp hps
      rw [gapFill]
      split_ifs with h1 h2 h3
      · simp
      · refine List.pairwise_cons.mpr ⟨?_, ih _ htail⟩
        intro t ht
        obtain ⟨q, hq, rr, -, -, -, rfl, -⟩ := gapFill_mem ps _ t ht
        have h4 : q.afterEnd ≤ (gapSegCandidate rr q).startDate := gapStart_ge rr q
        have h5 : p.beforeStart ≤ q.afterEnd := hhead q hq
        have h6 : (gapSegCandidate r p).endDate = p.beforeStart - 1 := rfl
        omega
      · exact ih _ htail
      · exact ih _ htail

/-! ## Facts about the backward-fill loop -/

theorem clampedYears_pos_lt (a b : Int) (h : 0 < clampedYears a b) : a < b := by
  rw [clampedYears] at h
  have hd : 0 < daysBetween a b := by omega
  rw [daysBetween] at hd
  exact (civilDays_lt_iff a b).mp (by omega)

/-- Every backward segment is a genuine interval ending before the running
boundary, and never starts before the legal-work-start floor. -/
theorem backwardFill_facts (floorD : Int) : ∀ n : ℕ, ∀ r cur, r.toNat ≤ n →
    ∀ s ∈ backwardFill floorD r cur,
      s.startDate < s.endDate ∧ s.endDate ≤ cur - 1 ∧ floorD ≤ s.startDate := by
  intro n
  induction n with
  | zero =>
      intro r cur hn s hs
      rw [backwardFill_eq, if_pos (by omega : r ≤ 0)] at hs
      simp at hs
  | succ k ih =>
      intro r cur hn s hs
      rw [backwardFill_eq] at hs
      by_cases hr : r ≤ 0
      · rw [if_pos hr] at hs
        simp at hs
      · rw [if_neg hr] at hs
        by_cases hclamp : backStart r cur < floorD
        · rw [if_pos hclamp] at hs
          by_cases hy : clampedYears floorD (cur - 1) ≤ 0
          · rw [if_pos hy] at hs
            simp at hs
          · rw [if_neg hy] at hs
            have hlt : floorD < cur - 1 := clampedYears_pos_lt _ _ (by omega)
            rcases List.mem_cons.mp hs with rfl | hs'
            · exact ⟨hlt, le_refl _, le_refl _⟩
            · have hrec := ih (r - clampedYears floorD (cur - 1)) floorD (by omega) s hs'
              exact ⟨hrec.1, by omega, hrec.2.2⟩
        · rw [if_neg hclamp] at hs
          have hmin : 1 ≤ min r 3 := by omega
          rcases List.mem_cons.mp hs with rfl | hs'
          · refine ⟨?_, le_refl _, ?_⟩
            · dsimp only
              rw [backStart]
              omega
            · dsimp only
              omega
          · have hrec := ih (r - min r 3) (backStart r cur) (by omega) s hs'
            refine ⟨hrec.1, ?_, hrec.2.2⟩
            have : backStart r cur ≤ cur - 13 := by rw [backStart]; omega
            omega

/-- Backward segments are pushed newest first: each later segment ends
strictly before every earlier one starts. -/
theorem backwardFill_pairwise (floorD : Int) : ∀ n : ℕ, ∀ r cur, r.toNat ≤ n →
    (backwardFill floorD r cur).Pairwise (fun s t => t.endDate < s.startDate) := by
  intro n
  induction n with
  | zero =>
      intro r cur hn
      rw [backwardFill_eq, if_pos (by omega : r ≤ 0)]
      simp
  | succ k ih =>
      intro r cur hn
      rw [backwardFill_eq]
      by_cases hr : r ≤ 0
      · rw [if_pos hr]; simp
      · rw [if_neg hr]
        by_cases hclamp : backStart r cur < floorD
        · rw [if_pos hclamp]
          by_cases hy : clampedYears floorD (cur - 1) ≤ 0
          · rw [if_pos hy]; simp
          · rw [if_neg hy]
            refine List.pairwise_cons.mpr ⟨?_, ih _ _ (by omega)⟩
            intro t ht
            have := backwardFill_facts floorD k _ _ (by omega) t ht
            dsimp only
            omega
        · rw [if_neg hclamp]
          have hmin : 1 ≤ min r 3 := by omega
          refine List.pairwise_cons.mpr ⟨?_, ih _ _ (by omega)⟩
          intro t ht
          have := backwardFill_facts floorD k _ _ (by omega) t ht
          dsimp only
          omega

/-- The backward loop allocates at most `r` segments: it terminates after at
most the requested number of years' worth of iterations. -/
theorem backwardFill_length (floorD : Int) : ∀ n : ℕ, ∀ r cur, r.toNat ≤ n →
    (backwardFill floorD r cur).length ≤ r.toNat := by
  intro n
  induction n with
  | zero =>
      intro r cur hn
      rw [backwardFill_eq, if_pos (by omega : r ≤ 0)]
      simp
  | succ k ih =>
      intro r cur hn
      rw [backwardFill_eq]
      by_cases hr : r ≤ 0
      · rw [if_pos hr]; simp
      · rw [if_neg hr]
        by_cases hclamp : backStart r cur < floorD
        · rw [if_pos hclamp]
          by_cases hy : clampedYears floorD (cur - 1) ≤ 0
          · rw [if_pos hy]; simp
          · rw [if_neg hy]
            have := ih (r - clampedYears floorD (cur - 1)) floorD (by omega)
            simp only [List.length_cons]
            omega
        · rw [if_neg hclamp]
          have hmin : 1 ≤ min r 3 := by omega
          have := ih (r - min r 3) (backStart r cur) (by omega)
          simp only [List.length_cons]
          omega

/-- Once the running boundary sits on the floor, the loop allocates nothing
more: the next candidate start would precede the floor, the clamp empties the
segment, and the loop breaks. -/
theorem backwardFill_at_floor (floorD r : Int) : backwardFill floorD r floorD = [] := by
  rw [backwardFill_eq]
  by_cases hr : r ≤ 0
  · rw [if_pos hr]
  · rw [if_neg hr]
    have hmin : 1 ≤ min r 3 := by omega
    have hclamp : backStart r floorD < floorD := by rw [backStart]; omega
    rw [if_pos hclamp]
    have hd : daysBetween floorD (floorD - 1) < 0 := daysBetween_neg_of_lt _ _ (by omega)
    have hy : clampedYears floorD (floorD - 1) ≤ 0 := by
      rw [clampedYears]
      have : max 0 (daysBetween floorD (floorD - 1) * 100) = 0 := max_eq_left (by omega)
      rw [this]
      norm_num
    rw [if_pos hy]

/-- A segment that starts exactly at the floor is the last one the backward
loop pushes. -/
theorem backwardFill_floor_is_last (floorD : Int) : ∀ n : ℕ, ∀ r cur, r.toNat ≤ n →
    ∀ s ∈ (backwardFill floorD r cur).dropLast, s.startDate ≠ floorD := by
  intro n
  induction n with
  | zero =>
      intro r cur hn s hs
      rw [backwardFill_eq, if_pos (by omega : r ≤ 0)] at hs
      simp at hs
  | succ k ih =>
      intro r cur hn s hs
      rw [backwardFill_eq] at hs
      by_cases hr : r ≤ 0
      · rw [if_pos hr] at hs; simp at hs
      · rw [if_neg hr] at hs
        by_cases hclamp : backStart r cur < floorD
        · rw [if_pos hclamp] at hs
          by_cases hy : clampedYears floorD (cur - 1) ≤ 0
          · rw [if_pos hy] at hs; simp at hs
          · rw [if_neg hy, backwardFill_at_floor] at hs
            simp at hs
        · rw [if_neg hclamp] at hs
          by_cases hfl : backStart r cur = floorD
          · rw [hfl, backwardFill_at_floor] at hs
            simp at hs
          · rcases htail : backwardFill floorD (r - min r 3) (backStart r cur) with - | ⟨t1, trest⟩
            · rw [htail] at hs
              simp at hs
            · rw [htail, List.dropLast_cons₂, List.mem_cons] at hs
              rcases hs with rfl | hs'
              · exact hfl
              · refine ih (r - min r 3) (backStart r cur) (by omega) s ?_
                rw [htail]
                exact hs'

/-! ## Overlap model

Intervals are month ranges; consistently with the source's own span
arithmetic (an interval from `s` to `e` counts `e - s` months), a range is
taken half-open, `[start, end)`, and two ranges overlap when they share a
month: `s1 < e2 ∧ s2 < e1`. -/

/-- Half-open month ranges `[s1, e1)` and `[s2, e2)` share at least one month. -/
def monthRangesOverlap (s1 e1 s2 e2 : Int) : Prop := s1 < e2 ∧ s2 < e1

theorem monthRangesOverlap_symm (s1 e1 s2 e2 : Int) :
    monthRangesOverlap s1 e1 s2 e2 → monthRangesOverlap s2 e2 s1 e1 :=
  fun h => ⟨h.2, h.1⟩

theorem sortExps_perm (l : List WorkExp) : List.Perm (sortExps l) l :=
  List.perm_insertionSort byStart l

theorem sortExps_sorted (l : List WorkExp) : (sortExps l).Sorted byStart :=
  List.sorted_insertionSort byStart l

/-- A gap segment does not overlap any real interval, provided the real
intervals are nonempty and pairwise non-overlapping. -/
theorem gapSeg_no_overlap (now : Int) (sorted : List WorkExp) (r : Int)
    (hsort : sorted.Sorted byStart)
    (hwf : ∀ e ∈ sorted, e.start < resolveEnd now e)
    (hdisj : sorted.Pairwise (fun a b =>
      ¬ monthRangesOverlap a.start (resolveEnd now a) b.start (resolveEnd now b)))
    (s : Seg) (hs : s ∈ (gapFill (insertPositions now sorted) r).1)
    (e : WorkExp) (he : e ∈ sorted) :
    ¬ monthRangesOverlap s.startDate s.endDate e.start (resolveEnd now e) := by
  obtain ⟨p, hp, rr, -, -, hav, rfl, hy⟩ := gapFill_mem _ _ s hs
  obtain ⟨pre, c, n, post, heq, hq, hp2⟩ := (insertPositions_mem now sorted p).mp hp
  have hAfter : p.afterEnd = resolveEnd now c := by rw [hp2]
  have hBefore : p.beforeStart = n.start := by rw [hp2]
  have h1 : p.afterEnd ≤ (gapSegCandidate rr p).startDate := gapStart_ge rr p
  have h2 : (gapSegCandidate rr p).endDate = p.beforeStart - 1 := rfl
  have h3 : (gapSegCandidate rr p).startDate < (gapSegCandidate rr p).endDate :=
    segYears_pos_lt _ _ hy
  have hcmem : c ∈ sorted := by
    rw [heq]
    exact List.mem_append_right pre (List.mem_cons_self c (n :: post))
  have hwfc : c.start < resolveEnd now c := hwf c hcmem
  rw [heq] at hsort hdisj he
  rcases List.mem_append.mp he with hepre | hemid
  · have hrel : ¬ monthRangesOverlap e.start (resolveEnd now e) c.start (resolveEnd now c) :=
      (List.pairwise_append.mp hdisj).2.2 e hepre c
        (List.mem_cons_self c (n :: post))
    have hse : e.start ≤ c.start :=
      (List.pairwise_append.mp hsort).2.2 e hepre c (List.mem_cons_self c (n :: post))
    have hee : resolveEnd now e ≤ c.start := by
      by_contra hcon
      push_neg at hcon
      exact hrel ⟨by omega, hcon⟩
    rintro ⟨hA, hB⟩
    omega
  · rcases List.mem_cons.mp hemid with rfl | hemid2
    · rintro ⟨hA, hB⟩
      omega
    · rcases List.mem_cons.mp hemid2 with rfl | hepost
      · rintro ⟨hA, hB⟩
        omega
      · have hne : n.start ≤ e.start := by
          have hp1 : (c :: n :: post).Sorted byStart := (List.pairwise_append.mp hsort).2.1
          exact (List.pairwise_cons.mp ((List.pairwise_cons.mp hp1).2)).1 e hepost
        rintro ⟨hA, hB⟩
        omega

/-- Every backward segment lies strictly before the start of every real
interval (the reals being start-sorted with `e0` first). -/
theorem backSeg_before_reals (floorD rem : Int) (e0 : WorkExp) (es : List WorkExp)
    (hsort : (e0 :: es).Sorted byStart)
    (s : Seg) (hs : s ∈ backwardFill floorD rem e0.start)
    (e : WorkExp) (he : e ∈ e0 :: es) :
    s.endDate < e.start := by
  have hf := backwardFill_facts floorD rem.toNat rem e0.start (le_refl _) s hs
  have h0 : e0.start ≤ e.start := sorted_head_le e0 es hsort e he
  omega

/-- Every gap segment starts at or after the resolved end of some real
interval, hence strictly after the earliest real start. -/
theorem gapSeg_start_after_head (now : Int) (sorted : List WorkExp) (r : Int)
    (hwf : ∀ e ∈ sorted, e.start < resolveEnd now e)
    (e0 : WorkExp) (es : List WorkExp) (hhead : sorted = e0 :: es)
    (hsort : sorted.Sorted byStart)
    (s : Seg) (hs : s ∈ (gapFill (insertPositions now sorted) r).1) :
    e0.start < s.startDate := by
  obtain ⟨p, hp, rr, -, -, -, rfl, -⟩ := gapFill_mem _ _ s hs
  obtain ⟨pre, c, n, post, heq, -, hp2⟩ := (insertPositions_mem now sorted p).mp hp
  have hc : c ∈ sorted := by
    rw [heq]
    exact List.mem_append_right pre (List.mem_cons_self c (n :: post))
  have h1 : p.afterEnd ≤ (gapSegCandidate rr p).startDate := gapStart_ge rr p
  have hAfter : p.afterEnd = resolveEnd now c := by rw [hp2]
  have hwfc : c.start < resolveEnd now c := hwf c hc
  have h0 : e0.start ≤ c.start := by
    rw [hhead] at hc hsort
    exact sorted_head_le e0 es hsort c hc
  omega

/-! ## The response validator of `enhance` (resumeAIService.ts)

JavaScript string primitives are remodelled over `List Char` so that every
definition evaluates by kernel reduction; `JSON.parse` is a language builtin
and is abstracted as a parameter `parse : String → Option Json` (`none`
models a parse exception). -/

/-- A parsed JSON value (`JSON.parse` result).  Numbers are modelled as
integers (the only numeric field in play, `yearsOfExperience`, is integral). -/
inductive Json where
  | null
  | bool (b : Bool)
  | num (n : Int)
  | str (s : String)
  | arr (elems : List Json)
  | obj (fields : List (String × Json))

mutual

/-- JavaScript `String(v)` for a parsed JSON value:
`String(null) = "null"`, booleans and numbers print themselves, arrays join
their elements with "," (null elements printing as ""), plain objects print
"[object Object]". -/
def jsToString : Json → String
  | .null => "null"
  | .bool b => if b then "true" else "false"
  | .num n => toString n
  | .str s => s
  | .obj _ => "[object Object]"
  | .arr l => jsArrString l
  termination_by structural j => j

/-- `Array.prototype.toString`: elements joined with ",", `null` printing
as the empty string. -/
def jsArrString : List Json → String
  | [] => ""
  | [.null] => ""
  | [x] => jsToString x
  | .null :: xs => "," ++ jsArrString xs
  | x :: xs => jsToString x ++ "," ++ jsArrString xs
  termination_by structural l => l

end

/-- Whitespace trimmed by `String.prototype.trim` (the common ASCII cases). -/
def isJsWS (c : Char) : Bool := c == ' ' || c == '\t' || c == '\n' || c == '\r'

def trimChars (l : List Char) : List Char :=
  ((l.dropWhile isJsWS).reverse.dropWhile isJsWS).reverse

/-- `text.trim()`. -/
def jsTrim (s : String) : String := ⟨trimChars s.data⟩

/-- `text.toLowerCase()` (ASCII case mapping, which covers every placeholder
token the validator compares against). -/
def jsToLower (s : String) : String := ⟨s.data.map Char.toLower⟩

/-- Remove every occurrence of `pat`, left to right, as
`text.replace(/pat/g, '')` does (fuel-structured over the text length; each
step consumes at least one character, so the fuel never truncates). -/
def removeAllFuel (pat : List Char) : ℕ → List Char → List Char
  | 0, l => l
  | _ + 1, [] => []
  | n + 1, c :: rest =>
      if pat ≠ [] ∧ pat.isPrefixOf (c :: rest)
      then removeAllFuel pat n (List.drop (pat.length - 1) rest)
      else c :: removeAllFuel pat n rest

/-- `s.replace(/pat/g, '')`. -/
def jsRemoveAll (pat s : String) : String := ⟨removeAllFuel pat.data s.data.length s.data⟩

/-- `text.replace(/```json/g, '').replace(/```/g, '').trim()` — the code-fence
stripping both the validator and the post-validation parse apply. -/
def stripFence (text : String) : String :=
  jsTrim (jsRemoveAll "```" (jsRemoveAll "```json" text))

/-- `data[field]` for a parsed value: `undefined` (`none`) unless the value
is an object with that key (`JSON.parse` objects have unique keys). -/
def lookupFields : List (String × Json) → String → Option Json
  | [], _ => none
  | (k, v) :: rest, f => if k = f then some v else lookupFields rest f

def jsLookup : Json → String → Option Json
  | .obj fields, f => lookupFields fields f
  | _, _ => none

/-- The `isIllegal` helper of `enhance` (resumeAIService.ts lines 20-25):
absent (`undefined`) or `null` values are illegal, and so is any value whose
trimmed, lower-cased string form is one of the placeholder tokens
"", "undefined", "null", "nan", "暂无", "none". -/
def isIllegal (v : Option Json) : Bool :=
  match v with
  | none => true
  | some .null => true
  | some j =>
      let s := jsToLower (jsTrim (jsToString j))
      s == "" || s == "undefined" || s == "null" || s == "nan" || s == "暂无" || s == "none"

/-- The required fields checked by the validator callback in `enhance`. -/
def requiredFields : List String :=
  ["position", "yearsOfExperience", "personalIntroduction", "professionalSkills",
    "workExperience"]

/-- The validator callback `enhance` passes to `generateContent`
(resumeAIService.ts lines 363-379): strip code fences, parse, and demand
every required field be present and legal.  `false` means the attempt is
illegal (the source throws, which its caller was meant to treat as failure). -/
def validate (parse : String → Option Json) (text : String) : Bool :=
  match parse (stripFence text) with
  | none => false
  | some data => requiredFields.all fun f => !isIllegal (jsLookup data f)

/-! ## The model invoker (geminiService.ts `generateContent`) -/

/-- The fixed ordered candidate list of the source. -/
def geminiModels : List String := ["gemini-2.0-flash", "gemini-2.5-pro"]

/-- The body of `generateContent`'s `for (const modelName of models)` loop.
`transport` models one generation call: `.ok text` on transport success,
`.error message` on a thrown transport error.  On failure of the model whose
name equals the last entry of the original list, the loop throws the
aggregate error naming that failure; otherwise it advances to the next
candidate.  Note the loop performs no response validation of any kind. -/
def generateContentLoop (lastName : Option String) (transport : String → Except String String) :
    List String → Except String String
  | [] => .ok ""
  | m :: rest =>
      match transport m with
      | .ok t => .ok t
      | .error e =>
          if some m = lastName then .error ("所有 Gemini 模型调用均失败: " ++ e)
          else generateContentLoop lastName transport rest

/-- `GeminiService.generateContent` (geminiService.ts lines 65-96).  Its only
parameter besides the prompt is the transport behaviour; the second argument
passed by `enhance` (the validator callback) does not exist in this signature
and is silently discarded by JavaScript. -/
def generateContent (models : List String) (transport : String → Except String String) :
    Except String String :=
  generateContentLoop models.getLast? transport models

/-! ## Target title and result merge (resumeAIService.ts lines 28, 386-393)

The full `ResumeData` shape lives in types.ts, which is not among the
repository's files; fields other than the five the enhancer overwrites are
modelled from the spec as an opaque `rest` component ("merged back into the
output resume record"). -/

/-- `isEnglish ? (job.title_english || job.title_chinese) : job.title_chinese`;
`||` falls back on the falsy empty string. -/
def targetTitle (isEnglish : Bool) (titleEnglish titleChinese : String) : String :=
  if isEnglish then (if titleEnglish = "" then titleChinese else titleEnglish)
  else titleChinese

/-- Modelled from the spec: the output resume record.  `rest` stands for every
field of the base record other than the five the enhancer overwrites
(types.ts is not part of the staged sources). -/
structure ResumeData (ρ : Type) where
  rest : ρ
  position : String
  yearsOfExperience : Option Json
  personalIntroduction : Option Json
  professionalSkills : Option Json
  workExperience : Option Json

/-- The result merge of `enhance` on success: spread the base record, force
`position` to the computed target title, and take the four content fields
from the model's parsed response. -/
def mergeEnhanced {ρ : Type} (base : ResumeData ρ) (title : String) (enhanced : Json) :
    ResumeData ρ :=
  { rest := base.rest
    position := title
    yearsOfExperience := jsLookup enhanced "yearsOfExperience"
    personalIntroduction := jsLookup enhanced "personalIntroduction"
    professionalSkills := jsLookup enhanced "professionalSkills"
    workExperience := jsLookup enhanced "workExperience" }

/-! ## Timeline merge (resumeAIService.ts lines 202-229) -/

/-- Origin tag of a timeline entry (`type: 'existing' | 'supplement'`; an
existing entry carries its index into the original experience list). -/
inductive EntryOrigin where
  | existing (index : ℕ)
  | supplement
deriving DecidableEq, Repr

/-- One entry of the source's `allWorkExperiences` array ("至今" resolved to
the current month on construction). -/
structure TimelineEntry where
  start : Int
  endResolved : Int
  origin : EntryOrigin
deriving DecidableEq, Repr

def existingEntries (now : Int) (exps : List WorkExp) : List TimelineEntry :=
  exps.enum.map fun ie => ⟨ie.2.start, resolveEnd now ie.2, .existing ie.1⟩

def supplementEntries (segs : List Seg) : List TimelineEntry :=
  segs.map fun s => ⟨s.startDate, s.endDate, .supplement⟩

/-- The merged timeline before sorting: existing experiences first (in input
order), then supplement segments (in allocation order). -/
def allWorkExperiences (now : Int) (exps : List WorkExp) (segs : List Seg) :
    List TimelineEntry :=
  existingEntries now exps ++ supplementEntries segs

/-- The comparator `(a, b) => dateB - dateA`: descending by start date; with
a stable sort (JavaScript `Array.prototype.sort` is stable), ties keep their
original relative order. -/
def byStartDesc (a b : TimelineEntry) : Prop := b.start ≤ a.start

instance : DecidableRel byStartDesc := fun a b => inferInstanceAs (Decidable (b.start ≤ a.start))

instance : IsTotal TimelineEntry byStartDesc := ⟨fun a b => le_total b.start a.start⟩

instance : IsTrans TimelineEntry byStartDesc := ⟨fun _ _ _ h1 h2 => le_trans h2 h1⟩

/-- `allWorkExperiences.sort((a, b) => dateB - dateA)` — descending, stable. -/
def sortedTimeline (now : Int) (exps : List WorkExp) (segs : List Seg) :
    List TimelineEntry :=
  List.insertionSort byStartDesc (allWorkExperiences now exps segs)

/-! ## Tenure computation and requirement parsing (resumeAIService.ts 36-79) -/

/-- `parseInt` on a run of decimal digits. -/
def digitsToNat (l : List Char) : ℕ := l.foldl (fun acc c => 10 * acc + (c.toNat - 48)) 0

/-- Match `/(\d+)-(\d+)年/` anchored at the head of the character list:
a maximal digit run, a dash, a maximal digit run, then '年'. -/
def matchRangeAt (l : List Char) : Option (ℕ × ℕ) :=
  if l.takeWhile Char.isDigit = [] then none
  else
    match l.dropWhile Char.isDigit with
    | '-' :: r2 =>
        if r2.takeWhile Char.isDigit = [] then none
        else
          match r2.dropWhile Char.isDigit with
          | c :: _ =>
              if c = '年'
              then some (digitsToNat (l.takeWhile Char.isDigit),
                digitsToNat (r2.takeWhile Char.isDigit))
              else none
          | [] => none
    | _ => none

/-- `req.match(/(\d+)-(\d+)年/)`: the earliest position where the pattern
matches. -/
def scanRange : List Char → Option (ℕ × ℕ)
  | [] => none
  | c :: rest =>
      match matchRangeAt (c :: rest) with
      | some v => some v
      | none => scanRange rest

/-- Match `/(\d+)年以上/` anchored at the head of the character list. -/
def matchAtLeastAt (l : List Char) : Option ℕ :=
  if l.takeWhile Char.isDigit = [] then none
  else
    match l.dropWhile Char.isDigit with
    | a :: b :: c :: _ =>
        if a = '年' ∧ b = '以' ∧ c = '上'
        then some (digitsToNat (l.takeWhile Char.isDigit))
        else none
    | _ => none

/-- `req.match(/(\d+)年以上/)`: the earliest position where the pattern
matches. -/
def scanAtLeast : List Char → Option ℕ
  | [] => none
  | c :: rest =>
      match matchAtLeastAt (c :: rest) with
      | some v => some v
      | none => scanAtLeast rest

/-- `parseExperienceRequirement` (resumeAIService.ts lines 65-75):
"a-b年" → (a, b); otherwise "a年以上" → (a, 999); otherwise (0, 999). -/
def parseExperienceRequirement (s : String) : Int × Int :=
  match scanRange s.data with
  | some d => ((d.1 : Int), (d.2 : Int))
  | none =>
      match scanAtLeast s.data with
      | some d => ((d : Int), 999)
      | none => (0, 999)

/-- `supplementYears` of `enhance`: `requiredExp.min - actualYears` when the
floored actual years fall short of the required minimum, else 0
(`actualYears = Math.floor(totalMonths / 12)`). -/
def supplementYearsOf (now : Int) (exps : List WorkExp) (req : String) : Int :=
  if totalMonths now exps / 12 < (parseExperienceRequirement req).1
  then (parseExperienceRequirement req).1 - totalMonths now exps / 12
  else 0

/-- `earliestWorkDate`: July of `birthYear + 19`, as a month index. -/
def earliestWorkDate (birthYear : Int) : Int := 12 * (birthYear + 19) + 6

/-- The `supplementSegments` value `enhance` computes: the allocator runs only
when supplementation is needed and at least one real experience exists. -/
def enhanceSegments (now birthYear : Int) (exps : List WorkExp) (req : String) : List Seg :=
  if totalMonths now exps / 12 < (parseExperienceRequirement req).1 ∧ exps ≠ []
  then supplementSegments now (earliestWorkDate birthYear) exps (supplementYearsOf now exps req)
  else []

/-! ## Further helper material for the claim theorems -/

instance (s1 e1 s2 e2 : Int) : Decidable (monthRangesOverlap s1 e1 s2 e2) :=
  inferInstanceAs (Decidable (s1 < e2 ∧ s2 < e1))

/-- Inserting into a sorted-descending list never passes an element with the
same start key: the key-`k` sublist gains `x` in front exactly when `x` has
key `k`. -/
theorem filter_orderedInsert_key (x : TimelineEntry) (l : List TimelineEntry) (k : Int) :
    (List.orderedInsert byStartDesc x l).filter (fun e => e.start == k) =
      (if x.start = k then [x] else []) ++ l.filter (fun e => e.start == k) := by
  induction l with
  | nil =>
      by_cases hx : x.start = k <;>
        simp [List.orderedInsert, List.filter_cons, beq_iff_eq, hx]
  | cons y l ih =>
      rw [List.orderedInsert]
      by_cases hr : byStartDesc x y
      · rw [if_pos hr]
        by_cases hx : x.start = k <;> simp [List.filter_cons, beq_iff_eq, hx]
      · rw [if_neg hr]
        have hlt : x.start < y.start := by
          rw [byStartDesc] at hr
          omega
        by_cases hy : y.start = k
        · have hx : ¬ x.start = k := by omega
          simp [List.filter_cons, beq_iff_eq, hy, hx, ih]
        · simp [List.filter_cons, beq_iff_eq, hy, ih]

/-- JavaScript's `Array.prototype.sort` is stable: per start key, the sorted
timeline lists the entries in their original order. -/
theorem filter_insertionSort_key (l : List TimelineEntry) (k : Int) :
    (List.insertionSort byStartDesc l).filter (fun e => e.start == k) =
      l.filter (fun e => e.start == k) := by
  induction l with
  | nil => rfl
  | cons x l ih =>
      rw [List.insertionSort, filter_orderedInsert_key, ih]
      by_cases hx : x.start = k <;> simp [List.filter_cons, beq_iff_eq, hx]

/-- The placeholder tokens of `isIllegal`, in source order. -/
def placeholderTokens : List String := ["", "undefined", "null", "nan", "暂无", "none"]

/-- `isIllegal` as the spec words it: a field is illegal when it is absent, or
its trimmed lower-cased string form is one of the placeholder tokens. -/
def isIllegalSpec (v : Option Json) : Bool :=
  match v with
  | none => true
  | some j => decide (jsToLower (jsTrim (jsToString j)) ∈ placeholderTokens)

/-- The source's `isIllegal` coincides with the spec's wording: the extra
`val === null` early return is subsumed by the "null" token
(`String(null) = "null"`). -/
theorem isIllegal_eq_spec (v : Option Json) : isIllegal v = isIllegalSpec v := by
  have htok : ∀ s : String, (s == "" || s == "undefined" || s == "null" || s == "nan"
      || s == "暂无" || s == "none") = decide (s ∈ placeholderTokens) := by
    intro s
    rw [Bool.eq_iff_iff]
    simp [placeholderTokens, or_assoc]
  cases v with
  | none => rfl
  | some j =>
      cases j with
      | null => decide
      | bool b => exact htok (jsToLower (jsTrim (jsToString (Json.bool b))))
      | num n => exact htok (jsToLower (jsTrim (jsToString (Json.num n))))
      | str s => exact htok (jsToLower (jsTrim (jsToString (Json.str s))))
      | arr l => exact htok (jsToLower (jsTrim (jsToString (Json.arr l))))
      | obj f => exact htok (jsToLower (jsTrim (jsToString (Json.obj f))))

/-! ## Concrete scenarios for the invoker claims -/

/-- A legal parsed response: every required field present and non-placeholder. -/
def legalResp : Json :=
  .obj [("position", .str "工程师"), ("yearsOfExperience", .num 5),
    ("personalIntroduction", .str "专业人士"), ("professionalSkills", .str "技能"),
    ("workExperience", .str "经历")]

/-- A parse behaviour under which exactly the text "GOOD" parses, to `legalResp`. -/
def parseOnlyGood : String → Option Json :=
  fun s => if s = "GOOD" then some legalResp else none

/-- A transport where both models succeed, the first with an illegal text and
the second with a legal one. -/
def trFirstIllegal : String → Except String String :=
  fun m => if m = "gemini-2.0-flash" then .ok "BAD" else .ok "GOOD"

/-- A parse behaviour under which no text parses: every response is illegal. -/
def parseNothing : String → Option Json := fun _ => none

/-- A transport where both models succeed, each with an illegal text. -/
def trAllIllegal : String → Except String String :=
  fun m => if m = "gemini-2.0-flash" then .ok "暂无" else .ok "也暂无"

/-! ## The claim theorems -/

/-- C1: the spec says an attempt whose transport succeeds but whose text the
response validator declares illegal is treated exactly like a transport
failure, advancing to the next candidate model.  The code diverges:
`generateContent` takes no validator parameter (the callback `enhance` passes
is silently dropped), so the invoker returns the first transport success even
when the validator rejects it and a later candidate would have been legal. -/
theorem C1_invoker_returns_illegal_response :
    trFirstIllegal "gemini-2.0-flash" = .ok "BAD" ∧
    validate parseOnlyGood "BAD" = false ∧
    trFirstIllegal "gemini-2.5-pro" = .ok "GOOD" ∧
    validate parseOnlyGood "GOOD" = true ∧
    generateContent geminiModels trFirstIllegal = .ok "BAD" :=
  ⟨rfl, by decide, rfl, by decide, rfl⟩

/-- C2: the spec says every synthetic segment, including those inserted into
gaps between real intervals, starts no earlier than the legal-work-start
floor (July of birth year + 19).  The code diverges: only the backward-fill
loop compares against `earliestWorkDate`; the gap-insertion loop never does,
and here it fabricates a segment starting December 2019 (month index 24239)
although the floor is July 2022 (month index 24270 = `earliestWorkDate 2003`). -/
theorem C2_gap_segment_precedes_floor :
    enhanceSegments 24317 2003 [⟨24228, some 24233⟩, ⟨24276, some 24311⟩] "7-10年" =
      [⟨24239, 24275, 3⟩] ∧
    24239 < earliestWorkDate 2003 :=
  ⟨by decide, by decide⟩

/-- C3 (amended): provided the real intervals are well-formed (each starts
before its resolved end) and pairwise non-overlapping, no synthetic segment
overlaps a real interval and no two synthetic segments overlap.  The original
claim, quantified over every input, fails for nested real intervals
(`C3_counterexample`). -/
theorem C3_no_overlap (now floorD : Int) (exps : List WorkExp) (supY : Int)
    (hwf : ∀ e ∈ exps, e.start < resolveEnd now e)
    (hdisj : exps.Pairwise fun a b =>
      ¬ monthRangesOverlap a.start (resolveEnd now a) b.start (resolveEnd now b)) :
    (∀ s ∈ supplementSegments now floorD exps supY, ∀ e ∈ exps,
        ¬ monthRangesOverlap s.startDate s.endDate e.start (resolveEnd now e)) ∧
      (supplementSegments now floorD exps supY).Pairwise fun s t =>
        ¬ monthRangesOverlap s.startDate s.endDate t.startDate t.endDate := by
  rcases hsx : sortExps exps with - | ⟨e0, es⟩
  · simp only [supplementSegments, hsx]
    constructor
    · intro s hs
      simp at hs
    · simp
  · have hperm : List.Perm (e0 :: es) exps := by
      rw [← hsx]
      exact sortExps_perm exps
    have hsort : (e0 :: es).Sorted byStart := by
      rw [← hsx]
      exact sortExps_sorted exps
    have hwf' : ∀ e ∈ e0 :: es, e.start < resolveEnd now e :=
      fun e he => hwf e (hperm.mem_iff.mp he)
    have hsymm : Symmetric fun a b : WorkExp =>
        ¬ monthRangesOverlap a.start (resolveEnd now a) b.start (resolveEnd now b) :=
      fun a b hab hba => hab (monthRangesOverlap_symm _ _ _ _ hba)
    have hdisj' : (e0 :: es).Pairwise fun a b =>
        ¬ monthRangesOverlap a.start (resolveEnd now a) b.start (resolveEnd now b) :=
      (hperm.pairwise_iff fun {a b} h => hsymm h).mpr hdisj
    simp only [supplementSegments, hsx]
    constructor
    · intro s hs e he
      rcases List.mem_append.mp hs with hg | hb
      · exact gapSeg_no_overlap now (e0 :: es) supY hsort hwf' hdisj' s hg e
          (hperm.mem_iff.mpr he)
      · have h1 := backSeg_before_reals _ _ e0 es hsort s hb e (hperm.mem_iff.mpr he)
        rintro ⟨hA, hB⟩
        omega
    · rw [List.pairwise_append]
      refine ⟨?_, ?_, ?_⟩
      · refine (gapFill_pairwise _ supY (insertPositions_pairwise now _ hsort hwf')).imp ?_
        intro s t hst
        rintro ⟨hA, hB⟩
        omega
      · refine (backwardFill_pairwise _ _ _ e0.start (le_refl _)).imp ?_
        intro s t hst
        rintro ⟨hA, hB⟩
        omega
      · intro s hs t ht
        have h1 := gapSeg_start_after_head now (e0 :: es) supY hwf' e0 es rfl hsort s hs
        have h2 := backwardFill_facts _ _ _ e0.start (le_refl _) t ht
        rintro ⟨hA, hB⟩
        omega

/-- Closed instantiation of `C3_no_overlap`: a single well-formed real
interval, a positive requirement, a floor far in the past; the allocator
fabricates one backward segment and the guarantee holds. -/
theorem C3_no_overlap_witness :
    (∀ e ∈ ([⟨0, some 2⟩] : List WorkExp), e.start < resolveEnd 5 e) ∧
    (([⟨0, some 2⟩] : List WorkExp).Pairwise fun a b =>
      ¬ monthRangesOverlap a.start (resolveEnd 5 a) b.start (resolveEnd 5 b)) ∧
    ((∀ s ∈ supplementSegments 5 (-100) [⟨0, some 2⟩] 1,
        ∀ e ∈ ([⟨0, some 2⟩] : List WorkExp),
          ¬ monthRangesOverlap s.startDate s.endDate e.start (resolveEnd 5 e)) ∧
      (supplementSegments 5 (-100) [⟨0, some 2⟩] 1).Pairwise fun s t =>
        ¬ monthRangesOverlap s.startDate s.endDate t.startDate t.endDate) :=
  ⟨by decide, by decide, C3_no_overlap 5 (-100) [⟨0, some 2⟩] 1 (by decide) (by decide)⟩

/-- C3 counterexample: with nested real intervals (all user-supplied), the
gap-detection loop — which only looks at consecutive intervals of the
start-sorted list — fabricates a segment inside the enclosing interval, so a
synthetic segment overlaps a real one. -/
theorem C3_counterexample :
    ∃ s ∈ supplementSegments 0 0
        [⟨24120, some 24251⟩, ⟨24132, some 24137⟩, ⟨24180, some 24185⟩] 3,
      ∃ e ∈ ([⟨24120, some 24251⟩, ⟨24132, some 24137⟩,
          ⟨24180, some 24185⟩] : List WorkExp),
        monthRangesOverlap s.startDate s.endDate e.start (resolveEnd 0 e) := by
  decide

/-- C4: the spec says the invoker returns the first candidate's result only
when it is legal, and raises the aggregate error exactly when every candidate
fails or is illegal.  The code diverges: legality is never checked (no
validator parameter), so when every candidate transport-succeeds with an
illegal text the invoker raises no error at all and returns the first illegal
text. -/
theorem C4_no_error_when_all_illegal :
    validate parseNothing "暂无" = false ∧
    validate parseNothing "也暂无" = false ∧
    trAllIllegal "gemini-2.0-flash" = .ok "暂无" ∧
    trAllIllegal "gemini-2.5-pro" = .ok "也暂无" ∧
    generateContent geminiModels trAllIllegal = .ok "暂无" ∧
    ∀ msg : String, generateContent geminiModels trAllIllegal ≠ .error msg := by
  refine ⟨by decide, by decide, rfl, rfl, rfl, ?_⟩
  intro msg h
  have h2 : generateContent geminiModels trAllIllegal = Except.ok "暂无" := rfl
  rw [h2] at h
  exact Except.noConfusion h

/-- C5: the backward-fill loop terminates — it pushes one segment per
continuing iteration and never more than the requested number of years — and
the legal-work-start floor is a hard stop: started at the floor the loop
allocates nothing (whatever years remain unmet), and a floor-clamped segment
is always the last one pushed. -/
theorem C5_backward_loop_floor_stop (floorD r cur : Int) :
    (backwardFill floorD r cur).length ≤ r.toNat ∧
    backwardFill floorD r floorD = [] ∧
    ∀ s ∈ (backwardFill floorD r cur).dropLast, s.startDate ≠ floorD :=
  ⟨backwardFill_length floorD r.toNat r cur (le_refl _),
    backwardFill_at_floor floorD r,
    backwardFill_floor_is_last floorD r.toNat r cur (le_refl _)⟩

/-- C6: a gap between consecutive intervals of the sorted list is recorded
exactly when it spans at least 4 (approximate) months; every segment the gap
loop inserts is built at some position with at least half a year available,
ends one month before the next real interval, starts at the end backed up by
the floored available years — clamped to one month after the prior interval's
end when it would precede it — and consumes at most
`min(remainingYears, gapMonths/12, 3)` years. -/
theorem C6_gap_loop_characterization (now r : Int) (l : List WorkExp) :
    (∀ p : GapPos, p ∈ insertPositions now l ↔
      ∃ pre c n post, l = pre ++ c :: n :: post ∧
        4 ≤ monthsQ (resolveEnd now c) n.start ∧
        p = ⟨resolveEnd now c, n.start, ⌊monthsQ (resolveEnd now c) n.start⌋⟩) ∧
    (∀ ps : List GapPos, ∀ s ∈ (gapFill ps r).1,
      ∃ p ∈ ps, ∃ rr : Int, 0 < rr ∧ rr ≤ r ∧
        1 / 2 ≤ availYears rr p ∧
        s.endDate = p.beforeStart - 1 ∧
        s.startDate =
          (if p.beforeStart - 1 - 12 * ⌊availYears rr p⌋ < p.afterEnd
            then p.afterEnd + 1
            else p.beforeStart - 1 - 12 * ⌊availYears rr p⌋) ∧
        s.years ≤ ⌊availYears rr p⌋ ∧ 0 < s.years) := by
  constructor
  · intro p
    rw [insertPositions_mem]
    constructor
    · rintro ⟨pre, c, n, post, heq, hq, hp⟩
      refine ⟨pre, c, n, post, heq, (monthsQ_four_le_iff _ _).mpr hq, ?_⟩
      rw [hp, gapMonthsFloored_eq]
    · rintro ⟨pre, c, n, post, heq, hq, hp⟩
      refine ⟨pre, c, n, post, heq, (monthsQ_four_le_iff _ _).mp hq, ?_⟩
      rw [hp, gapMonthsFloored_eq]
  · intro ps s hs
    obtain ⟨p, hp, rr, h0, hle, hav, hcand, hy⟩ := gapFill_mem ps r s hs
    subst hcand
    refine ⟨p, hp, rr, h0, hle, (half_le_availYears_iff rr p).mpr hav, rfl, ?_, ?_, hy⟩
    · rw [floor_availYears_eq]
      rfl
    · rw [floor_availYears_eq]
      exact gapSegCandidate_years_le rr p hav

/-- C7 (amended): the tenure is the sum of the per-interval month spans (an
empty list summing to 0) and the supplement equals
`max 0 (min − ⌊tenure/12⌋)`; provided the summed tenure is nonnegative — as
it is for well-formed intervals — a minimum of 0 and an unparsable
requirement both yield no supplementation.  The original edge-case sentence,
quantified over every interval list, fails for an interval whose end precedes
its start (`C7_counterexample`). -/
theorem C7_tenure_supplement (now : Int) (exps : List WorkExp) (req : String) :
    totalMonths now exps = (exps.map fun e => resolveEnd now e - e.start).sum ∧
    totalMonths now ([] : List WorkExp) = 0 ∧
    supplementYearsOf now exps req =
      max 0 ((parseExperienceRequirement req).1 - totalMonths now exps / 12) ∧
    (0 ≤ totalMonths now exps →
      ((parseExperienceRequirement req).1 = 0 → supplementYearsOf now exps req = 0) ∧
      (scanRange req.data = none ∧ scanAtLeast req.data = none →
        parseExperienceRequirement req = (0, 999) ∧
          supplementYearsOf now exps req = 0)) := by
  have hdiv : ∀ t : Int, 0 ≤ t → 0 ≤ t / 12 := fun t ht => Int.ediv_nonneg ht (by norm_num)
  refine ⟨rfl, rfl, ?_, ?_⟩
  · rw [supplementYearsOf]
    split_ifs with h <;> omega
  · intro h0
    have ht := hdiv _ h0
    constructor
    · intro hm
      rw [supplementYearsOf, if_neg]
      omega
    · rintro ⟨h1, h2⟩
      have hpe : parseExperienceRequirement req = (0, 999) := by
        rw [parseExperienceRequirement, h1, h2]
      refine ⟨hpe, ?_⟩
      rw [supplementYearsOf, hpe, if_neg]
      simp only
      omega

/-- C7 counterexample: an interval whose end precedes its start makes the
summed tenure negative, its floored years negative, and so a requirement with
minimum 0 — here an unparsable string — does trigger supplementation. -/
theorem C7_counterexample :
    (parseExperienceRequirement "无要求").1 = 0 ∧
    scanRange "无要求".data = none ∧ scanAtLeast "无要求".data = none ∧
    supplementYearsOf 0 [⟨24250, some 24240⟩] "无要求" = 1 := by
  decide

/-- C8: the merged timeline is a permutation of the concatenated entries
(existing first, then synthetic), sorted descending by start; per start key
the original order is kept, so entries tied on start appear with every
existing entry before every synthetic one, in input order. -/
theorem C8_timeline_sorted_stable (now : Int) (exps : List WorkExp) (segs : List Seg) :
    (sortedTimeline now exps segs).Sorted byStartDesc ∧
    List.Perm (sortedTimeline now exps segs) (allWorkExperiences now exps segs) ∧
    ∀ k : Int,
      (sortedTimeline now exps segs).filter (fun e => e.start == k) =
        (existingEntries now exps).filter (fun e => e.start == k) ++
          (supplementEntries segs).filter (fun e => e.start == k) := by
  refine ⟨List.sorted_insertionSort byStartDesc _,
    List.perm_insertionSort byStartDesc _, ?_⟩
  intro k
  rw [sortedTimeline, filter_insertionSort_key, allWorkExperiences, List.filter_append]

/-- C9: the validator declares a response illegal exactly when it fails to
parse after code-fence stripping, or some required field is absent or — after
trimming and lower-casing — equals a placeholder token; in particular a
parsable response whose `personalIntroduction` is "暂无" is illegal. -/
theorem C9_validator_iff (parse : String → Option Json) (text : String) :
    (validate parse text = false ↔
      parse (stripFence text) = none ∨
        ∃ d, parse (stripFence text) = some d ∧
          ∃ f ∈ requiredFields, isIllegalSpec (jsLookup d f) = true) ∧
    ∀ d, parse (stripFence text) = some d →
      jsLookup d "personalIntroduction" = some (.str "暂无") →
      validate parse text = false := by
  constructor
  · rcases hp : parse (stripFence text) with - | d
    · simp only [validate, hp]
      simp
    · simp only [validate, hp]
      constructor
      · intro hall
        rcases List.all_eq_false.mp hall with ⟨f, hf, hbad⟩
        refine Or.inr ⟨d, rfl, f, hf, ?_⟩
        rw [← isIllegal_eq_spec]
        simpa using hbad
      · rintro (h | ⟨d2, hd2, f, hf, hbad⟩)
        · exact Option.noConfusion h
        · injection hd2 with hh
          subst hh
          refine List.all_eq_false.mpr ⟨f, hf, ?_⟩
          rw [← isIllegal_eq_spec] at hbad
          simp [hbad]
  · intro d hp hlook
    simp only [validate, hp]
    refine List.all_eq_false.mpr ⟨"personalIntroduction", by decide, ?_⟩
    rw [hlook]
    decide

/-- C10 (amended): on success the merged result's `position` equals the
computed target title and the untouched remainder of the base record is
returned unchanged; the target title is the Chinese title unless the language
selector is english, in which case it is the English title — except that an
empty English title falls back (via JavaScript `||`) to the Chinese title,
which is where the original claim fails (`C10_counterexample`). -/
theorem C10_position_forced (ρ : Type) (base : ResumeData ρ) (isEnglish : Bool)
    (en zh : String) (enhanced : Json) :
    (mergeEnhanced base (targetTitle isEnglish en zh) enhanced).position =
      targetTitle isEnglish en zh ∧
    (mergeEnhanced base (targetTitle isEnglish en zh) enhanced).rest = base.rest ∧
    (isEnglish = false → targetTitle isEnglish en zh = zh) ∧
    (isEnglish = true → en ≠ "" → targetTitle isEnglish en zh = en) ∧
    (isEnglish = true → en = "" → targetTitle isEnglish en zh = zh) := by
  refine ⟨rfl, rfl, ?_, ?_, ?_⟩
  · intro h
    rw [targetTitle, h]
    rfl
  · intro h hne
    rw [targetTitle, h]
    simp [hne]
  · intro h he
    rw [targetTitle, h, he]
    rfl

/-- C10 counterexample: with the language selector on english and an empty
English title, the forced `position` is the Chinese title, not the English
one. -/
theorem C10_counterexample :
    targetTitle true "" "工程师" = "工程师" ∧
    (mergeEnhanced (⟨(), "旧职位", none, none, none, none⟩ : ResumeData Unit)
        (targetTitle true "" "工程师") Json.null).position ≠ "" := by
  constructor
  · rfl
  · intro h
    exact absurd h (by decide)
